import Mathlib

/-!
Verification of the serial transport layer (`sim_serial.c`).

Strings are modelled as lists of byte values (`List Nat`, each < 256 in use);
a C string is such a list with no embedded 0, and reading `s[i]` for `i` up
to and including the terminator is modelled by `List.getD i 0` (index
`strlen s` reads the terminator byte 0).  Host/OS interactions (registry
walk, `open`, `tcgetattr`, `ReadFile`, ...) are inputs of the model: the
bytes a read delivered, whether a host call succeeded, the enumerated
device list.
-/

namespace SimSerial

/-- ASCII `toupper` (the effect of `if (islower(c)) c = toupper(c)`). -/
def toupperB (b : Nat) : Nat := if 97 ≤ b ∧ b ≤ 122 then b - 32 else b

/-- ASCII `tolower`. -/
def tolowerB (b : Nat) : Nat := if 65 ≤ b ∧ b ≤ 90 then b + 32 else b

/-- ASCII `isdigit`. -/
def isdigitB (b : Nat) : Bool := 48 ≤ b && b ≤ 57

/-- `strlen`: number of bytes before the first NUL. -/
def strlenList : List Nat → Nat
  | [] => 0
  | b :: rest => if b = 0 then 0 else strlenList rest + 1

/-- Accumulator loop of `atoi` on a digit string. -/
def atoiAux : List Nat → Nat → Nat
  | [], acc => acc
  | b :: rest, acc => if 48 ≤ b ∧ b ≤ 57 then atoiAux rest (acc * 10 + (b - 48)) else acc

/-- `atoi` on a byte string that starts with its digits (as guaranteed at the
one call site, `atoi(&name[3])` after `isdigit(name[3])` held). -/
def atoiList (l : List Nat) : Nat := atoiAux l 0

/-- `memchr (l, x, n)`: offset of the first occurrence of byte `x` among the
first `n` bytes of `l`, if any. -/
def memchrL (x : Nat) : List Nat → Nat → Option Nat
  | [], _ => none
  | _ :: _, 0 => none
  | b :: rest, n + 1 => if b = x then some 0 else (memchrL x rest n).map (· + 1)

/-- `memmove (buf+dst, buf+src, len)` on a buffer of bytes: the bytes at
positions `[src, src+len)` are copied to `[dst, dst+len)`; everything before
`dst` and from `dst+len` on is unchanged. -/
def memmoveL (buf : List Nat) (dst src len : Nat) : List Nat :=
  buf.take dst ++ (buf.drop src).take len ++ buf.drop (dst + len)

/-- `sim_serial_strncasecmp (string1, string2, len)` from `sim_serial.c`:
compare up to `len` bytes after ASCII upper-casing; `-1`/`1` at the first
difference, `0` when a common NUL is reached or `len` bytes agreed. -/
def sim_serial_strncasecmp : List Nat → List Nat → Nat → Int
  | _, _, 0 => 0
  | s1, s2, n + 1 =>
    if toupperB (s1.headD 0) < toupperB (s2.headD 0) then -1
    else if toupperB (s2.headD 0) < toupperB (s1.headD 0) then 1
    else if toupperB (s1.headD 0) = 0 then 0
    else sim_serial_strncasecmp s1.tail s2.tail n

/-- One entry of a `SERIAL_LIST` catalog: device name and description. -/
structure SERIAL_LIST where
  name : List Nat
  desc : List Nat
deriving DecidableEq, Inhabited

/-- The name test of `sim_serial_getname_byname` / `sim_serial_getdesc_byname`:
`n == strlen(list[i].name) && sim_serial_strncasecmp(name, list[i].name, n) == 0`
with `n = strlen(name)`. -/
def nameMatches (name ename : List Nat) : Bool :=
  (strlenList name == strlenList ename) &&
    (sim_serial_strncasecmp name ename (strlenList name) == 0)

/-- The description test of `sim_serial_getname_bydesc`: equal `strlen`, then
`tolower` byte comparison over all positions (the loop sets `found = 0` on a
mismatch but never breaks early). -/
def descMatches (desc edesc : List Nat) : Bool :=
  (strlenList desc == strlenList edesc) &&
    (List.range (strlenList desc)).all
      (fun k => tolowerB (desc.getD k 0) == tolowerB (edesc.getD k 0))

/-- `sim_serial_getname (number)`: entry `number` of the catalog, or NULL when
`count <= number`. The catalog (result of `sim_serial_devices`) is a
parameter, as its content comes from the host. -/
def sim_serial_getname (catalog : List SERIAL_LIST) (number : Nat) : Option (List Nat) :=
  if catalog.length ≤ number then none else some (catalog.getD number default).name

/-- `sim_serial_getname_bydesc`: the name of the first catalog entry whose
description matches case-insensitively at full length. -/
def sim_serial_getname_bydesc (catalog : List SERIAL_LIST) (desc : List Nat) :
    Option (List Nat) :=
  (catalog.find? (fun e => descMatches desc e.desc)).map (·.name)

/-- `sim_serial_getname_byname`: the (canonically cased) name of the first
catalog entry whose name matches case-insensitively at full length. -/
def sim_serial_getname_byname (catalog : List SERIAL_LIST) (name : List Nat) :
    Option (List Nat) :=
  (catalog.find? (fun e => nameMatches name e.name)).map (·.name)

/-- `sim_serial_getdesc_byname`: the description of the first catalog entry
whose name matches case-insensitively at full length. -/
def sim_serial_getdesc_byname (catalog : List SERIAL_LIST) (name : List Nat) :
    Option (List Nat) :=
  (catalog.find? (fun e => nameMatches name e.name)).map (·.desc)

/-- The `"serX"` test of `sim_open_serial`: `strlen(name) <= 5`, `"ser"`
case-insensitively at positions 0-2, a digit at position 3, and a digit or
the terminator at position 4. -/
def serPattern (name : List Nat) : Bool :=
  (strlenList name ≤ 5 : Bool) &&
    (tolowerB (name.getD 0 0) == 115) &&
    (tolowerB (name.getD 1 0) == 101) &&
    (tolowerB (name.getD 2 0) == 114) &&
    isdigitB (name.getD 3 0) &&
    (isdigitB (name.getD 4 0) || (name.getD 4 0 == 0))

/-- Outcome of the name-resolution phase of `sim_open_serial`: either the
indexed form failed (`INVALID_HANDLE` is returned before any open attempt),
or a device name (with optional description) is handed to
`sim_open_os_serial`. -/
inductive ResolveResult where
  | notFound : ResolveResult
  | resolved : List Nat → Option (List Nat) → ResolveResult
deriving DecidableEq

/-- The name-resolution phase of `sim_open_serial` (everything before the
call to `sim_open_os_serial`), with the catalog as a parameter. -/
def resolveName (catalog : List SERIAL_LIST) (name : List Nat) : ResolveResult :=
  if serPattern name then
    match sim_serial_getname catalog (atoiList (name.drop 3)) with
    | none => ResolveResult.notFound
    | some nm => ResolveResult.resolved nm (sim_serial_getdesc_byname catalog nm)
  else
    match sim_serial_getname_bydesc catalog name with
    | some nm => ResolveResult.resolved nm (some name)
    | none =>
      match sim_serial_getname_byname catalog name with
      | none => ResolveResult.resolved name none
      | some nm => ResolveResult.resolved nm (sim_serial_getdesc_byname catalog nm)

/-- One entry of the process-wide open-device list. `port` stands for the
opaque `SERHANDLE`, `line` for the owning `TMLN *`. -/
structure open_serial_device where
  port : Nat
  line : Nat
  name : List Nat
  desc : List Nat
deriving DecidableEq, Inhabited

/-- `_serial_add_to_open_list`: grow the list by one and fill the new entry
(the entry is zeroed first, so a NULL `desc` leaves an empty description). -/
def _serial_add_to_open_list (l : List open_serial_device) (port line : Nat)
    (name : List Nat) (desc : Option (List Nat)) : List open_serial_device :=
  l ++ [⟨port, line, name, desc.getD []⟩]

/-- `_serial_remove_from_open_list`: find the first entry with this handle,
shift every later entry one slot left, drop the count by one; no match leaves
the list unchanged. -/
def _serial_remove_from_open_list (l : List open_serial_device) (port : Nat) :
    List open_serial_device :=
  match l with
  | [] => []
  | e :: rest =>
    if e.port = port then rest else e :: _serial_remove_from_open_list rest port

/-- Three-way `strcmp` on byte strings (sign only, as `qsort` consumes it). -/
def strcmpList : List Nat → List Nat → Int
  | [], [] => 0
  | [], _ :: _ => -1
  | _ :: _, [] => 1
  | a :: s, b :: t => if a < b then -1 else if b < a then 1 else strcmpList s t

/-- `_serial_name_compare` as a sorting relation: `strcmp` of the names is
non-positive. -/
def serialNameLe (a b : SERIAL_LIST) : Bool := strcmpList a.name b.name ≤ 0

/-- The merge loop of `sim_serial_devices`: walk the open-device list; skip
an open device whose name is already in the list, stop when the list already
holds `max` entries, otherwise append name and description. -/
def mergeLoop (acc : List SERIAL_LIST) (devs : List open_serial_device) (max : Nat) :
    List SERIAL_LIST :=
  match devs with
  | [] => acc
  | d :: rest =>
    if acc.any (fun e => e.name == d.name) then mergeLoop acc rest max
    else if max ≤ acc.length then acc
    else mergeLoop (acc ++ [⟨d.name, d.desc⟩]) rest max

/-- `sim_serial_devices (max, list)`: the host-enumerated list (a parameter:
its content is OS-dependent, but it holds at most `max` entries), merged with
the open-device list and sorted by name (`qsort` with
`_serial_name_compare`). -/
def sim_serial_devices (max : Nat) (osList : List SERIAL_LIST)
    (openDevs : List open_serial_device) : List SERIAL_LIST :=
  (mergeLoop osList openDevs max).mergeSort serialNameLe

/-- `SERCONFIG`: baud rate, character size, parity letter, stop bits. -/
structure SERCONFIG where
  baudrate : Nat
  charsize : Nat
  parity : Nat
  stopbits : Nat
deriving DecidableEq

/-- Status values `sim_config_serial` can return (`SCPE_OK`, `SCPE_ARG`,
`SCPE_IOERR`, `SCPE_IERR`). -/
inductive ConfigStatus where
  | ok : ConfigStatus
  | arg : ConfigStatus
  | ioerr : ConfigStatus
  | ierr : ConfigStatus
deriving DecidableEq

/-- Outcome of the host `SetCommState` call. -/
inductive HostSet where
  | ok : HostSet
  | invalidParam : HostSet
  | otherErr : HostSet
deriving DecidableEq

/-- The parity letters of the Windows `parity_map` (`'E' 'M' 'N' 'O' 'S'`). -/
def parityMapWin : List Nat := [69, 77, 78, 79, 83]

/-- The rates of the termios `baud_map`. -/
def baudMapRates : List Nat :=
  [50, 75, 110, 134, 150, 200, 300, 600, 1200, 1800, 2400, 4800,
   9600, 19200, 38400, 57600, 115200]

/-- Windows `sim_config_serial`. `getOk` is whether `GetCommState` succeeded,
`setRes` the outcome of `SetCommState` (the DCB field values written do not
affect the returned status). -/
def sim_config_serial_win (getOk : Bool) (setRes : HostSet) (config : SERCONFIG) :
    ConfigStatus :=
  if getOk = false then ConfigStatus.ioerr
  else if ¬(5 ≤ config.charsize ∧ config.charsize ≤ 8) then ConfigStatus.arg
  else if ¬(config.parity ∈ parityMapWin) then ConfigStatus.arg
  else if ¬(config.stopbits = 1 ∨ config.stopbits = 2 ∨ config.stopbits = 0) then
    ConfigStatus.arg
  else
    match setRes with
    | HostSet.ok => ConfigStatus.ok
    | HostSet.invalidParam => ConfigStatus.arg
    | HostSet.otherErr => ConfigStatus.ioerr

/-- termios `sim_config_serial`. `getOk` is whether `tcgetattr` succeeded,
`setOk` whether `tcsetattr` succeeded. Note the `tcsetattr` failure path
returns `SCPE_IERR` in the source. -/
def sim_config_serial_unix (getOk setOk : Bool) (config : SERCONFIG) : ConfigStatus :=
  if getOk = false then ConfigStatus.ioerr
  else if ¬(config.baudrate ∈ baudMapRates) then ConfigStatus.arg
  else if ¬(5 ≤ config.charsize ∧ config.charsize ≤ 8) then ConfigStatus.arg
  else if ¬(config.parity = 69 ∨ config.parity = 78 ∨ config.parity = 79) then
    ConfigStatus.arg
  else if ¬(config.stopbits = 1 ∨ config.stopbits = 2) then ConfigStatus.arg
  else if setOk then ConfigStatus.ok else ConfigStatus.ierr

/-- The specified behaviour of Encoding A on a byte stream, written from the
spec's words for comparison with the code: scanning left to right,
`{ESC, ESC}` collapses to one literal ESC, `{ESC, NUL, C}` collapses to `C`
flagged as BREAK exactly when `C` is NUL, a marker sequence cut off by the
end of the buffer passes through unresolved, and any other byte passes
through; scanning resumes after the produced byte. Each output pair is
(byte, BREAK flag). -/
def decodeA : List Nat → List (Nat × Bool)
  | [] => []
  | [a] => [(a, false)]
  | a :: b :: rest2 =>
    if a = 255 then
      if b = 255 then (255, false) :: decodeA rest2
      else if b = 0 then
        match rest2 with
        | [] => [(a, false), (b, false)]
        | c :: rest3 => (c, decide (c = 0)) :: decodeA rest3
      else (a, false) :: decodeA (b :: rest2)
    else (a, false) :: decodeA (b :: rest2)

/-- The byte column of a decoded stream. -/
def outBytes (l : List (Nat × Bool)) : List Nat := l.map Prod.fst

/-- The positions (from start index `i`) whose BREAK flag is set. -/
def flagsPos : List (Nat × Bool) → Nat → List Nat
  | [], _ => []
  | (_, f) :: rest, i => (if f then [i] else []) ++ flagsPos rest (i + 1)

/-- The PARMRK compaction loop of the UNIX `sim_read_serial`. `buf` is the
buffer contents, `c` the index `cptr` points at, `r` the `remaining` count,
`rc` the running `read_count`, `brk` the break positions recorded so far.
Returns the final buffer, `read_count` and break positions. -/
def parmrkLoop (buf : List Nat) (c r rc : Nat) (brk : List Nat) :
    List Nat × Nat × List Nat :=
  if _hr : r = 0 then (buf, rc, brk)
  else
    match memchrL 255 (buf.drop c) r with
    | none => (buf, rc, brk)
    | some o =>
      if buf[c + o + 1]? = some 255 then
        parmrkLoop (memmoveL buf (c + o + 1) (c + o + 2) (r - o - 1))
          (c + o + 1) (r - o - 1 - 1) (rc - 1) brk
      else if 0 < r - o - 1 ∧ buf[c + o + 1]? = some 0 then
        parmrkLoop (memmoveL buf (c + o) (c + o + 2) (r - o - 1))
          (c + o + 1) (r - o - 1 - 2) (rc - 2)
          (if (memmoveL buf (c + o) (c + o + 2) (r - o - 1))[c + o]? = some 0
           then brk ++ [c + o] else brk)
      else parmrkLoop buf (c + o + 1) (r - o - 1) rc brk
termination_by r
decreasing_by all_goals omega

/-- UNIX `sim_read_serial` on a successful raw read: `input` is what `read`
delivered; the result is the returned characters and the positions at which
the BREAK flag array was set. -/
def sim_read_serial_unix (input : List Nat) : List Nat × List Nat :=
  ((parmrkLoop input 0 (input.length - 1) input.length []).1.take
      (parmrkLoop input 0 (input.length - 1) input.length []).2.1,
   (parmrkLoop input 0 (input.length - 1) input.length []).2.2)

/-- Windows `sim_read_serial` on a successful read: `bytes` is what
`ReadFile` delivered, `breakDetected` whether `ClearCommError` reported
`CE_BREAK`. The characters pass through; on a BREAK the flag is set at the
first NUL (`memchr`), or at position 0 when there is none. -/
def sim_read_serial_win (bytes : List Nat) (breakDetected : Bool) :
    List Nat × List Nat :=
  (bytes,
   if breakDetected then [(memchrL 0 bytes bytes.length).getD 0] else [])

/-! ## List helper lemmas -/

theorem take_len_app (X Y : List Nat) (n : Nat) (h : n = X.length) :
    (X ++ Y).take n = X := by
  subst h; exact List.take_left X Y

theorem drop_len_app (X Y : List Nat) (n : Nat) (h : n = X.length) :
    (X ++ Y).drop n = Y := by
  subst h; exact List.drop_left X Y

theorem getAt_app (X Y : List Nat) (n k : Nat) (h : n = X.length) :
    (X ++ Y)[n + k]? = Y[k]? := by
  subst h
  induction X with
  | nil => simp
  | cons x X ih =>
    have hx : (x :: X).length + k = (X.length + k) + 1 := by
      simp only [List.length_cons]; omega
    rw [hx]
    simpa using ih

theorem getAt_cons (X : List Nat) (a : Nat) (Z : List Nat) (n : Nat) (h : n = X.length) :
    (X ++ a :: Z)[n]? = some a := by
  subst h
  induction X with
  | nil => simp
  | cons x X ih => simpa using ih

/-! ## memchr lemmas -/

theorem memchrL_none (x : Nat) (l : List Nat) (n : Nat)
    (h : ∀ b ∈ l.take n, b ≠ x) : memchrL x l n = none := by
  induction l generalizing n with
  | nil => cases n <;> rfl
  | cons b rest ih =>
    cases n with
    | zero => rfl
    | succ m =>
      have hb : b ≠ x := h b (by simp [List.take_succ_cons])
      simp only [memchrL, if_neg hb]
      rw [ih m (fun y hy => h y (by simp [List.take_succ_cons, hy]))]
      rfl

theorem memchrL_app (x : Nat) (s t : List Nat) (n : Nat)
    (hs : ∀ b ∈ s, b ≠ x) (hn : s.length < n) :
    memchrL x (s ++ x :: t) n = some s.length := by
  induction s generalizing n with
  | nil =>
    cases n with
    | zero => omega
    | succ m => simp [memchrL]
  | cons a s ih =>
    cases n with
    | zero => omega
    | succ m =>
      have ha : a ≠ x := hs a (by simp)
      have hm : s.length < m := by
        have := hn
        simp only [List.length_cons] at this
        omega
      simp only [List.cons_append, memchrL, if_neg ha, List.append_eq]
      rw [ih m (fun y hy => hs y (by simp [hy])) hm]
      simp

theorem memchrL_some_spec (x : Nat) (l : List Nat) (n o : Nat)
    (h : memchrL x l n = some o) :
    o < n ∧ o < l.length ∧ l[o]? = some x ∧ ∀ j < o, l[j]? ≠ some x := by
  induction l generalizing n o with
  | nil => cases n <;> simp [memchrL] at h
  | cons b rest ih =>
    cases n with
    | zero => simp [memchrL] at h
    | succ m =>
      by_cases hb : b = x
      · simp only [memchrL, if_pos hb, Option.some.injEq] at h
        subst h
        refine ⟨by omega, by simp, by simp [hb], ?_⟩
        intro j hj
        omega
      · simp only [memchrL, if_neg hb, Option.map_eq_some'] at h
        obtain ⟨o2, ho2, ho⟩ := h
        subst ho
        obtain ⟨h1, h2, h3, h4⟩ := ih m o2 ho2
        refine ⟨by omega, by simp only [List.length_cons]; omega, by simpa using h3, ?_⟩
        intro j hj
        cases j with
        | zero => simp [hb]
        | succ j2 =>
          simpa using h4 j2 (by omega)

/-! ## decodeA unfolding lemmas -/

theorem decodeA_one (a : Nat) : decodeA [a] = [(a, false)] := rfl

theorem decodeA_ff_ff (t : List Nat) :
    decodeA (255 :: 255 :: t) = (255, false) :: decodeA t := by
  cases t <;> rfl

theorem decodeA_ff_nul_cons (c : Nat) (t : List Nat) :
    decodeA (255 :: 0 :: c :: t) = (c, decide (c = 0)) :: decodeA t := rfl

theorem decodeA_ff_nul_nil : decodeA [255, 0] = [(255, false), (0, false)] := rfl

theorem decodeA_cons_ne (a : Nat) (l : List Nat) (ha : a ≠ 255) :
    decodeA (a :: l) = (a, false) :: decodeA l := by
  cases l with
  | nil => rfl
  | cons b t => cases t <;> simp [decodeA, ha]

theorem decodeA_ff_other (b : Nat) (t : List Nat) (hb : b ≠ 255) (hb0 : b ≠ 0) :
    decodeA (255 :: b :: t) = (255, false) :: decodeA (b :: t) := by
  cases t <;> simp [decodeA, hb, hb0]

theorem decodeA_app_nomark (s t : List Nat) (hs : ∀ b ∈ s, b ≠ 255) :
    decodeA (s ++ t) = s.map (fun b => (b, false)) ++ decodeA t := by
  induction s with
  | nil => simp
  | cons a s ih =>
    have ha : a ≠ 255 := hs a (by simp)
    rw [List.cons_append, decodeA_cons_ne a (s ++ t) ha, ih (fun y hy => hs y (by simp [hy]))]
    simp

theorem decodeA_nomark (l : List Nat) (h : ∀ b ∈ l.take (l.length - 1), b ≠ 255) :
    decodeA l = l.map (fun b => (b, false)) := by
  induction l with
  | nil => simp [decodeA]
  | cons a t ih =>
    cases t with
    | nil => simp [decodeA_one]
    | cons b u =>
      have ha : a ≠ 255 := by
        apply h a
        simp [List.take_succ_cons]
      rw [decodeA_cons_ne a (b :: u) ha, ih ?_]
      · simp
      · intro y hy
        apply h y
        have hlen : (a :: b :: u).length - 1 = ((b :: u).length - 1) + 1 := by
          simp only [List.length_cons]; omega
        rw [hlen, List.take_succ_cons]
        simp only [List.mem_cons]
        right; exact hy

theorem decodeA_length_le (l : List Nat) : (decodeA l).length ≤ l.length := by
  induction l using decodeA.induct with
  | case1 => simp [decodeA]
  | case2 a => simp [decodeA_one]
  | case3 rest2 ih =>
    rw [decodeA_ff_ff]
    simp only [List.length_cons]
    omega
  | case4 h =>
    rw [decodeA_ff_nul_nil]
    simp
  | case5 b rest h ih =>
    rw [decodeA_ff_nul_cons]
    simp only [List.length_cons]
    omega
  | case6 b rest2 hb hb0 ih =>
    rw [decodeA_ff_other b rest2 hb hb0]
    simp only [List.length_cons] at ih ⊢
    omega
  | case7 a b rest2 ha ih =>
    rw [decodeA_cons_ne a (b :: rest2) ha]
    simp only [List.length_cons] at ih ⊢
    omega

/-! ## flagsPos lemmas -/

theorem flagsPos_append (l1 l2 : List (Nat × Bool)) (i : Nat) :
    flagsPos (l1 ++ l2) i = flagsPos l1 i ++ flagsPos l2 (i + l1.length) := by
  induction l1 generalizing i with
  | nil => simp [flagsPos]
  | cons p rest ih =>
    obtain ⟨b, f⟩ := p
    simp only [List.cons_append, flagsPos, List.append_eq, List.length_cons]
    rw [ih (i + 1)]
    have h2 : i + 1 + rest.length = i + (rest.length + 1) := by omega
    rw [h2, List.append_assoc]

theorem flagsPos_map_false (l : List Nat) (i : Nat) :
    flagsPos (l.map (fun b => (b, false))) i = [] := by
  induction l generalizing i with
  | nil => rfl
  | cons a t ih => simp [flagsPos, ih]

theorem flagsPos_mem_lt (l : List (Nat × Bool)) (i j : Nat)
    (h : j ∈ flagsPos l i) : i ≤ j ∧ j < i + l.length := by
  induction l generalizing i with
  | nil => simp [flagsPos] at h
  | cons p rest ih =>
    obtain ⟨b, f⟩ := p
    simp only [flagsPos, List.mem_append] at h
    rcases h with h | h
    · cases f with
      | false => simp at h
      | true =>
        simp only [if_true, List.mem_singleton] at h
        subst h
        simp only [List.length_cons]
        omega
    · obtain ⟨h1, h2⟩ := ih (i + 1) h
      simp only [List.length_cons]
      omega

theorem outBytes_append (A B : List (Nat × Bool)) :
    outBytes (A ++ B) = outBytes A ++ outBytes B := by
  simp [outBytes]

theorem outBytes_cons (p : Nat × Bool) (l : List (Nat × Bool)) :
    outBytes (p :: l) = p.1 :: outBytes l := rfl

theorem outBytes_pairs (l : List Nat) :
    outBytes (l.map (fun b => (b, false))) = l := by
  induction l with
  | nil => rfl
  | cons a t ih => simp only [List.map_cons, outBytes_cons, ih]

theorem outBytes_length (l : List (Nat × Bool)) :
    (outBytes l).length = l.length := by
  simp [outBytes]

theorem flagsPos_succ (l : List (Nat × Bool)) (i : Nat) :
    flagsPos l (i + 1) = (flagsPos l i).map (· + 1) := by
  induction l generalizing i with
  | nil => rfl
  | cons p rest ih =>
    obtain ⟨b, f⟩ := p
    simp only [flagsPos, List.map_append]
    rw [ih (i + 1)]
    cases f <;> simp

/-! ## The PARMRK loop agrees with the specified decoding -/

theorem split255 (l : List Nat) :
    (∀ b ∈ l.take (l.length - 1), b ≠ 255) ∨
      ∃ s u, l = s ++ 255 :: u ∧ u ≠ [] ∧ ∀ b ∈ s, b ≠ 255 := by
  induction l with
  | nil => left; simp
  | cons a t ih =>
    cases t with
    | nil => left; simp
    | cons b u =>
      by_cases ha : a = 255
      · right
        exact ⟨[], b :: u, by simp [ha], by simp, by simp⟩
      · rcases ih with h | ⟨s, v, hsplit, hv, hs⟩
        · left
          intro y hy
          have hlen : (a :: b :: u).length - 1 = ((b :: u).length - 1) + 1 := by
            simp only [List.length_cons]; omega
          rw [hlen, List.take_succ_cons] at hy
          rcases List.mem_cons.mp hy with h1 | h1
          · subst h1; exact ha
          · exact h y h1
        · right
          refine ⟨a :: s, v, by simp [hsplit], hv, ?_⟩
          intro y hy
          rcases List.mem_cons.mp hy with h1 | h1
          · subst h1; exact ha
          · exact hs y h1

theorem parmrkLoop_zero (buf brk : List Nat) (c rc : Nat) :
    parmrkLoop buf c 0 rc brk = (buf, rc, brk) := by
  rw [parmrkLoop.eq_def, dif_pos rfl]

theorem parmrkLoop_none (buf brk : List Nat) (c r rc : Nat)
    (hm : memchrL 255 (buf.drop c) r = none) :
    parmrkLoop buf c r rc brk = (buf, rc, brk) := by
  by_cases hr : r = 0
  · rw [parmrkLoop.eq_def, dif_pos hr]
  · rw [parmrkLoop.eq_def, dif_neg hr]
    split
    · rfl
    · rename_i o h
      rw [hm] at h
      simp at h

theorem parmrkLoop_step_ff (buf brk : List Nat) (c r rc o : Nat)
    (hr : r ≠ 0) (hm : memchrL 255 (buf.drop c) r = some o)
    (hgt : buf[c + o + 1]? = some 255) :
    parmrkLoop buf c r rc brk
      = parmrkLoop (memmoveL buf (c + o + 1) (c + o + 2) (r - o - 1))
          (c + o + 1) (r - o - 1 - 1) (rc - 1) brk := by
  rw [parmrkLoop.eq_def, dif_neg hr]
  split
  · rename_i h
    rw [hm] at h
    simp at h
  · rename_i o2 h
    rw [hm] at h
    have ho : o = o2 := Option.some.inj h
    subst ho
    rw [if_pos hgt]

theorem parmrkLoop_step_nul (buf brk : List Nat) (c r rc o : Nat)
    (hr : r ≠ 0) (hm : memchrL 255 (buf.drop c) r = some o)
    (hne : ¬(buf[c + o + 1]? = some 255))
    (hpos : 0 < r - o - 1) (hgt : buf[c + o + 1]? = some 0) :
    parmrkLoop buf c r rc brk
      = parmrkLoop (memmoveL buf (c + o) (c + o + 2) (r - o - 1))
          (c + o + 1) (r - o - 1 - 2) (rc - 2)
          (if (memmoveL buf (c + o) (c + o + 2) (r - o - 1))[c + o]? = some 0
           then brk ++ [c + o] else brk) := by
  rw [parmrkLoop.eq_def, dif_neg hr]
  split
  · rename_i h
    rw [hm] at h
    simp at h
  · rename_i o2 h
    rw [hm] at h
    have ho : o = o2 := Option.some.inj h
    subst ho
    rw [if_neg hne, if_pos ⟨hpos, hgt⟩]

theorem parmrkLoop_step_other (buf brk : List Nat) (c r rc o : Nat)
    (hr : r ≠ 0) (hm : memchrL 255 (buf.drop c) r = some o)
    (hne : ¬(buf[c + o + 1]? = some 255))
    (hne2 : ¬(0 < r - o - 1 ∧ buf[c + o + 1]? = some 0)) :
    parmrkLoop buf c r rc brk = parmrkLoop buf (c + o + 1) (r - o - 1) rc brk := by
  rw [parmrkLoop.eq_def, dif_neg hr]
  split
  · rename_i h
    rw [hm] at h
    simp at h
  · rename_i o2 h
    rw [hm] at h
    have ho : o = o2 := Option.some.inj h
    subst ho
    rw [if_neg hne, if_neg hne2]

/-- Correctness of one whole run of the compaction loop: starting with an
already-processed region `done`, an unprocessed region `rest` (whose last
byte is outside the search window, as `remaining = read_count - 1`) and
trailing garbage left by earlier shifts, the loop rewrites `rest` into its
specified decoding and appends the specified BREAK positions. -/
theorem parmrkLoop_spec : ∀ (n : Nat) (rest done garbage brk buf : List Nat) (c r rc : Nat),
    rest.length ≤ n → buf = done ++ (rest ++ garbage) → c = done.length →
    r = rest.length - 1 → rc = done.length + rest.length →
    ∃ g, parmrkLoop buf c r rc brk
      = (done ++ (outBytes (decodeA rest) ++ g),
         done.length + (decodeA rest).length,
         brk ++ flagsPos (decodeA rest) done.length) := by
  intro n
  induction n with
  | zero =>
    intro rest done garbage brk buf c r rc hn hbuf hc hr hrc
    have hrest : rest = [] := List.eq_nil_of_length_eq_zero (Nat.le_zero.mp hn)
    subst hrest hbuf hc hr hrc
    refine ⟨garbage, ?_⟩
    rw [show ([] : List Nat).length - 1 = 0 from rfl, parmrkLoop_zero]
    simp [decodeA, outBytes, flagsPos]
  | succ n ih =>
    intro rest done garbage brk buf c r rc hn hbuf hc hr hrc
    subst hbuf hc hr hrc
    rcases split255 rest with hA | ⟨s, u, hsplit, hu, hs⟩
    · -- no marker inside the search window: the loop exits at once
      refine ⟨garbage, ?_⟩
      have hmc0 : memchrL 255 ((done ++ (rest ++ garbage)).drop done.length)
          (rest.length - 1) = none := by
        apply memchrL_none
        intro y hy
        rw [drop_len_app done (rest ++ garbage) done.length rfl] at hy
        rw [List.take_append_eq_append_take] at hy
        have h0 : rest.length - 1 - rest.length = 0 := by omega
        rw [h0, List.take_zero, List.append_nil] at hy
        exact hA y hy
      rw [parmrkLoop_none _ _ _ _ _ hmc0]
      have hdec : decodeA rest = rest.map (fun b => (b, false)) := decodeA_nomark rest hA
      rw [hdec, outBytes_pairs, flagsPos_map_false]
      simp
    · rcases u with _ | ⟨b0, u2⟩
      · exact absurd rfl hu
      subst hsplit
      have hl : (s ++ 255 :: b0 :: u2).length = s.length + u2.length + 2 := by
        simp only [List.length_append, List.length_cons]
        omega
      have hr0 : ¬((s ++ 255 :: b0 :: u2).length - 1 = 0) := by omega
      have hmc : memchrL 255
          ((done ++ ((s ++ 255 :: b0 :: u2) ++ garbage)).drop done.length)
          ((s ++ 255 :: b0 :: u2).length - 1) = some s.length := by
        rw [drop_len_app done _ done.length rfl]
        have hshape : (s ++ 255 :: b0 :: u2) ++ garbage
            = s ++ 255 :: (b0 :: (u2 ++ garbage)) := by simp
        rw [hshape]
        exact memchrL_app 255 s (b0 :: (u2 ++ garbage)) _ hs (by omega)
      have hget : (done ++ ((s ++ 255 :: b0 :: u2) ++ garbage))[done.length + s.length + 1]?
          = some b0 := by
        have hshape : done ++ ((s ++ 255 :: b0 :: u2) ++ garbage)
            = (done ++ (s ++ [255])) ++ (b0 :: (u2 ++ garbage)) := by simp
        rw [hshape]
        apply getAt_cons
        simp only [List.length_append, List.length_cons, List.length_nil]
        omega
      by_cases hb : b0 = 255
      · -- {ESC, ESC}: collapse to one literal ESC, resume after it
        subst hb
        rw [parmrkLoop_step_ff _ _ _ _ _ _ hr0 hmc hget]
        have htake : (done ++ ((s ++ 255 :: 255 :: u2) ++ garbage)).take
              (done.length + s.length + 1) = done ++ (s ++ [255]) := by
          have hshape : done ++ ((s ++ 255 :: 255 :: u2) ++ garbage)
              = (done ++ (s ++ [255])) ++ (255 :: (u2 ++ garbage)) := by simp
          rw [hshape]
          apply take_len_app
          simp only [List.length_append, List.length_cons, List.length_nil]
          omega
        have hmid : ((done ++ ((s ++ 255 :: 255 :: u2) ++ garbage)).drop
              (done.length + s.length + 2)).take
              ((s ++ 255 :: 255 :: u2).length - 1 - s.length - 1) = u2 := by
          have hshape : done ++ ((s ++ 255 :: 255 :: u2) ++ garbage)
              = (done ++ (s ++ [255, 255])) ++ (u2 ++ garbage) := by simp
          rw [hshape, drop_len_app _ _ _ (by
            simp only [List.length_append, List.length_cons, List.length_nil]
            omega)]
          apply take_len_app
          simp only [List.length_append, List.length_cons]
          omega
        have hmm : memmoveL (done ++ ((s ++ 255 :: 255 :: u2) ++ garbage))
              (done.length + s.length + 1) (done.length + s.length + 2)
              ((s ++ 255 :: 255 :: u2).length - 1 - s.length - 1)
            = (done ++ (s ++ [255]))
              ++ (u2 ++ (done ++ ((s ++ 255 :: 255 :: u2) ++ garbage)).drop
                    (done.length + s.length + 1
                      + ((s ++ 255 :: 255 :: u2).length - 1 - s.length - 1))) := by
          rw [memmoveL, htake, hmid, List.append_assoc]
        obtain ⟨g2, hg2⟩ := ih u2 (done ++ (s ++ [255]))
          ((done ++ ((s ++ 255 :: 255 :: u2) ++ garbage)).drop
            (done.length + s.length + 1
              + ((s ++ 255 :: 255 :: u2).length - 1 - s.length - 1)))
          brk
          (memmoveL (done ++ ((s ++ 255 :: 255 :: u2) ++ garbage))
            (done.length + s.length + 1) (done.length + s.length + 2)
            ((s ++ 255 :: 255 :: u2).length - 1 - s.length - 1))
          (done.length + s.length + 1)
          ((s ++ 255 :: 255 :: u2).length - 1 - s.length - 1 - 1)
          (done.length + (s ++ 255 :: 255 :: u2).length - 1)
          (by omega) hmm
          (by simp only [List.length_append, List.length_cons, List.length_nil]; omega)
          (by omega)
          (by simp only [List.length_append, List.length_cons, List.length_nil]; omega)
        refine ⟨g2, ?_⟩
        rw [hg2]
        have hdec : decodeA (s ++ 255 :: 255 :: u2)
            = s.map (fun b => (b, false)) ++ (255, false) :: decodeA u2 := by
          rw [decodeA_app_nomark s _ hs, decodeA_ff_ff]
        rw [hdec]
        simp only [Prod.mk.injEq]
        refine ⟨?_, ?_, ?_⟩
        · rw [outBytes_append, outBytes_cons, outBytes_pairs]
          simp
        · simp only [List.length_append, List.length_cons, List.length_map, List.length_nil]
          omega
        · rw [flagsPos_append, flagsPos_map_false, List.nil_append]
          simp only [flagsPos, if_neg (by simp : ¬(false = true)), List.nil_append,
            List.length_map]
          have hidx : (done ++ (s ++ [255])).length = done.length + s.length + 1 := by
            simp only [List.length_append, List.length_cons, List.length_nil]
            omega
          rw [hidx]
      · by_cases hb0 : b0 = 0
        · subst hb0
          rcases u2 with _ | ⟨w, v⟩
          · -- trailing {ESC, NUL}: unresolved, both bytes pass through
            rw [parmrkLoop_step_other _ _ _ _ _ _ hr0 hmc
              (by rw [hget]; simp)
              (by
                rintro ⟨hcon, -⟩
                simp only [List.length_append, List.length_cons, List.length_nil] at hcon
                omega)]
            have hR0 : (s ++ [255, 0]).length - 1 - s.length - 1 = 0 := by
              simp only [List.length_append, List.length_cons, List.length_nil]
              omega
            rw [hR0, parmrkLoop_zero]
            refine ⟨garbage, ?_⟩
            have hdec : decodeA (s ++ [255, 0])
                = s.map (fun b => (b, false)) ++ [(255, false), (0, false)] := by
              rw [decodeA_app_nomark s _ hs, decodeA_ff_nul_nil]
            rw [hdec]
            simp only [Prod.mk.injEq]
            refine ⟨?_, ?_, ?_⟩
            · rw [outBytes_append, outBytes_pairs]
              simp [outBytes]
            · simp only [List.length_append, List.length_cons, List.length_map,
                List.length_nil]
              try omega
            · rw [flagsPos_append, flagsPos_map_false, List.nil_append]
              simp [flagsPos]
          · -- {ESC, NUL, C}: collapse to C, BREAK flag iff C = NUL
            rw [parmrkLoop_step_nul _ _ _ _ _ _ hr0 hmc
              (by rw [hget]; simp)
              (by
                simp only [List.length_append, List.length_cons]
                omega)
              hget]
            have htake : (done ++ ((s ++ 255 :: 0 :: w :: v) ++ garbage)).take
                  (done.length + s.length) = done ++ s := by
              have hshape : done ++ ((s ++ 255 :: 0 :: w :: v) ++ garbage)
                  = (done ++ s) ++ (255 :: 0 :: w :: (v ++ garbage)) := by simp
              rw [hshape]
              apply take_len_app
              simp only [List.length_append]
            have hmid : ((done ++ ((s ++ 255 :: 0 :: w :: v) ++ garbage)).drop
                  (done.length + s.length + 2)).take
                  ((s ++ 255 :: 0 :: w :: v).length - 1 - s.length - 1) = w :: v := by
              have hshape : done ++ ((s ++ 255 :: 0 :: w :: v) ++ garbage)
                  = (done ++ (s ++ [255, 0])) ++ ((w :: v) ++ garbage) := by simp
              rw [hshape, drop_len_app _ _ _ (by
                simp only [List.length_append, List.length_cons, List.length_nil]
                omega)]
              apply take_len_app
              simp only [List.length_append, List.length_cons]
              omega
            have hmma : memmoveL (done ++ ((s ++ 255 :: 0 :: w :: v) ++ garbage))
                  (done.length + s.length) (done.length + s.length + 2)
                  ((s ++ 255 :: 0 :: w :: v).length - 1 - s.length - 1)
                = ((done ++ s) ++ (w :: v))
                  ++ (done ++ ((s ++ 255 :: 0 :: w :: v) ++ garbage)).drop
                        (done.length + s.length
                          + ((s ++ 255 :: 0 :: w :: v).length - 1 - s.length - 1)) := by
              rw [memmoveL, htake, hmid]
            have hmm : memmoveL (done ++ ((s ++ 255 :: 0 :: w :: v) ++ garbage))
                  (done.length + s.length) (done.length + s.length + 2)
                  ((s ++ 255 :: 0 :: w :: v).length - 1 - s.length - 1)
                = (done ++ (s ++ [w]))
                  ++ (v ++ (done ++ ((s ++ 255 :: 0 :: w :: v) ++ garbage)).drop
                        (done.length + s.length
                          + ((s ++ 255 :: 0 :: w :: v).length - 1 - s.length - 1))) := by
              rw [hmma]
              simp
            have hbrk : (memmoveL (done ++ ((s ++ 255 :: 0 :: w :: v) ++ garbage))
                  (done.length + s.length) (done.length + s.length + 2)
                  ((s ++ 255 :: 0 :: w :: v).length - 1 - s.length - 1))[done.length
                    + s.length]? = some w := by
              rw [hmma]
              have hshape : ((done ++ s) ++ (w :: v))
                    ++ (done ++ ((s ++ 255 :: 0 :: w :: v) ++ garbage)).drop
                        (done.length + s.length
                          + ((s ++ 255 :: 0 :: w :: v).length - 1 - s.length - 1))
                  = (done ++ s)
                    ++ (w :: (v ++ (done ++ ((s ++ 255 :: 0 :: w :: v) ++ garbage)).drop
                        (done.length + s.length
                          + ((s ++ 255 :: 0 :: w :: v).length - 1 - s.length - 1)))) := by
                simp
              rw [hshape]
              apply getAt_cons
              simp
            obtain ⟨g2, hg2⟩ := ih v (done ++ (s ++ [w]))
              ((done ++ ((s ++ 255 :: 0 :: w :: v) ++ garbage)).drop
                (done.length + s.length
                  + ((s ++ 255 :: 0 :: w :: v).length - 1 - s.length - 1)))
              (if (memmoveL (done ++ ((s ++ 255 :: 0 :: w :: v) ++ garbage))
                    (done.length + s.length) (done.length + s.length + 2)
                    ((s ++ 255 :: 0 :: w :: v).length - 1 - s.length
                      - 1))[done.length + s.length]? = some 0
               then brk ++ [done.length + s.length] else brk)
              (memmoveL (done ++ ((s ++ 255 :: 0 :: w :: v) ++ garbage))
                (done.length + s.length) (done.length + s.length + 2)
                ((s ++ 255 :: 0 :: w :: v).length - 1 - s.length - 1))
              (done.length + s.length + 1)
              ((s ++ 255 :: 0 :: w :: v).length - 1 - s.length - 1 - 2)
              (done.length + (s ++ 255 :: 0 :: w :: v).length - 2)
              (by
                simp only [List.length_append, List.length_cons] at hl hn
                omega)
              hmm
              (by simp only [List.length_append, List.length_cons, List.length_nil]; omega)
              (by
                simp only [List.length_append, List.length_cons]
                omega)
              (by
                simp only [List.length_append, List.length_cons, List.length_nil]
                omega)
            refine ⟨g2, ?_⟩
            rw [hg2]
            have hdec : decodeA (s ++ 255 :: 0 :: w :: v)
                = s.map (fun b => (b, false)) ++ (w, decide (w = 0)) :: decodeA v := by
              rw [decodeA_app_nomark s _ hs, decodeA_ff_nul_cons]
            rw [hdec, hbrk]
            simp only [Prod.mk.injEq]
            refine ⟨?_, ?_, ?_⟩
            · rw [outBytes_append, outBytes_cons, outBytes_pairs]
              simp
            · simp only [List.length_append, List.length_cons, List.length_map,
                List.length_nil]
              try omega
            · rw [flagsPos_append, flagsPos_map_false, List.nil_append]
              simp only [flagsPos, List.length_map, Option.some.injEq]
              by_cases hw : w = 0
              · subst hw
                rw [if_pos rfl]
                have hidx : (done ++ (s ++ [0])).length = done.length + s.length + 1 := by
                  simp only [List.length_append, List.length_cons, List.length_nil]
                  omega
                rw [hidx]
                simp
              · rw [if_neg hw, if_neg (by simpa using hw)]
                have hidx : (done ++ (s ++ [w])).length = done.length + s.length + 1 := by
                  simp only [List.length_append, List.length_cons, List.length_nil]
                  omega
                rw [hidx]
                simp
        · -- {ESC, other}: the marker byte passes through unresolved
          rw [parmrkLoop_step_other _ _ _ _ _ _ hr0 hmc
            (by rw [hget]; simp [hb])
            (by
              rintro ⟨-, hcon⟩
              rw [hget] at hcon
              exact hb0 (by simpa using hcon))]
          obtain ⟨g2, hg2⟩ := ih (b0 :: u2) (done ++ (s ++ [255])) garbage brk
            (done ++ ((s ++ 255 :: b0 :: u2) ++ garbage))
            (done.length + s.length + 1)
            ((s ++ 255 :: b0 :: u2).length - 1 - s.length - 1)
            (done.length + (s ++ 255 :: b0 :: u2).length)
            (by
              simp only [List.length_cons]
              omega)
            (by simp)
            (by simp only [List.length_append, List.length_cons, List.length_nil]; omega)
            (by
              simp only [List.length_cons]
              omega)
            (by simp only [List.length_append, List.length_cons, List.length_nil]; omega)
          refine ⟨g2, ?_⟩
          rw [hg2]
          have hdec : decodeA (s ++ 255 :: b0 :: u2)
              = s.map (fun b => (b, false)) ++ (255, false) :: decodeA (b0 :: u2) := by
            rw [decodeA_app_nomark s _ hs, decodeA_ff_other b0 u2 hb hb0]
          rw [hdec]
          simp only [Prod.mk.injEq]
          refine ⟨?_, ?_, ?_⟩
          · rw [outBytes_append, outBytes_cons, outBytes_pairs]
            simp
          · simp only [List.length_append, List.length_cons, List.length_map,
              List.length_nil]
            try omega
          · rw [flagsPos_append, flagsPos_map_false, List.nil_append]
            simp only [flagsPos, if_neg (by simp : ¬(false = true)), List.nil_append,
              List.length_map]
            have hidx : (done ++ (s ++ [255])).length = done.length + s.length + 1 := by
              simp only [List.length_append, List.length_cons, List.length_nil]
              omega
            rw [hidx]


/-! ## Truncated-sequence lemmas (input ending in a marker) -/

theorem decodeA_tail_ff0 : ∀ (n : Nat) (u : List Nat), u.length ≤ n →
    ∃ q, decodeA (u ++ [255, 0]) = q ++ [(255, false), (0, false)] := by
  intro n
  induction n with
  | zero =>
    intro u hu
    have h0 : u = [] := List.eq_nil_of_length_eq_zero (Nat.le_zero.mp hu)
    subst h0
    exact ⟨[], by rw [List.nil_append, decodeA_ff_nul_nil]; rfl⟩
  | succ n ih =>
    intro u hu
    rcases u with _ | ⟨a, u1⟩
    · exact ⟨[], by rw [List.nil_append, decodeA_ff_nul_nil]; rfl⟩
    by_cases ha : a = 255
    · subst ha
      rcases u1 with _ | ⟨b, u2⟩
      · refine ⟨[], ?_⟩
        rw [List.cons_append, List.nil_append, decodeA_ff_ff, decodeA_one]
        rfl
      by_cases hbb : b = 255
      · subst hbb
        obtain ⟨q2, hq2⟩ := ih u2 (by simp only [List.length_cons] at hu; omega)
        refine ⟨(255, false) :: q2, ?_⟩
        rw [List.cons_append, List.cons_append, decodeA_ff_ff, hq2]
        rfl
      by_cases hb0 : b = 0
      · subst hb0
        rcases u2 with _ | ⟨c, u3⟩
        · refine ⟨[], ?_⟩
          rw [show ([255, 0] : List Nat) ++ [255, 0] = 255 :: 0 :: 255 :: [0] from rfl,
            decodeA_ff_nul_cons, decodeA_one]
          rfl
        · obtain ⟨q3, hq3⟩ := ih u3 (by simp only [List.length_cons] at hu; omega)
          refine ⟨(c, decide (c = 0)) :: q3, ?_⟩
          rw [List.cons_append, List.cons_append, List.cons_append,
            decodeA_ff_nul_cons, hq3]
          rfl
      · obtain ⟨q2, hq2⟩ := ih (b :: u2) (by simp only [List.length_cons] at hu ⊢; omega)
        refine ⟨(255, false) :: q2, ?_⟩
        rw [List.cons_append, List.cons_append,
          decodeA_ff_other b (u2 ++ [255, 0]) hbb hb0, ← List.cons_append, hq2]
        rfl
    · obtain ⟨q1, hq1⟩ := ih u1 (by simp only [List.length_cons] at hu; omega)
      refine ⟨(a, false) :: q1, ?_⟩
      rw [List.cons_append, decodeA_cons_ne a (u1 ++ [255, 0]) ha, hq1]
      rfl

theorem decodeA_tail_ff : ∀ (n : Nat) (u : List Nat), u.length ≤ n →
    ∃ q, decodeA (u ++ [255]) = q ++ [(255, false)] := by
  intro n
  induction n with
  | zero =>
    intro u hu
    have h0 : u = [] := List.eq_nil_of_length_eq_zero (Nat.le_zero.mp hu)
    subst h0
    exact ⟨[], by rw [List.nil_append, decodeA_one]; rfl⟩
  | succ n ih =>
    intro u hu
    rcases u with _ | ⟨a, u1⟩
    · exact ⟨[], by rw [List.nil_append, decodeA_one]; rfl⟩
    by_cases ha : a = 255
    · subst ha
      rcases u1 with _ | ⟨b, u2⟩
      · refine ⟨[], ?_⟩
        rw [List.cons_append, List.nil_append, decodeA_ff_ff]
        rfl
      by_cases hbb : b = 255
      · subst hbb
        obtain ⟨q2, hq2⟩ := ih u2 (by simp only [List.length_cons] at hu; omega)
        refine ⟨(255, false) :: q2, ?_⟩
        rw [List.cons_append, List.cons_append, decodeA_ff_ff, hq2]
        rfl
      by_cases hb0 : b = 0
      · subst hb0
        rcases u2 with _ | ⟨c, u3⟩
        · refine ⟨[], ?_⟩
          rw [show ([255, 0] : List Nat) ++ [255] = 255 :: 0 :: 255 :: [] from rfl,
            decodeA_ff_nul_cons]
          rfl
        · obtain ⟨q3, hq3⟩ := ih u3 (by simp only [List.length_cons] at hu; omega)
          refine ⟨(c, decide (c = 0)) :: q3, ?_⟩
          rw [List.cons_append, List.cons_append, List.cons_append,
            decodeA_ff_nul_cons, hq3]
          rfl
      · obtain ⟨q2, hq2⟩ := ih (b :: u2) (by simp only [List.length_cons] at hu ⊢; omega)
        refine ⟨(255, false) :: q2, ?_⟩
        rw [List.cons_append, List.cons_append,
          decodeA_ff_other b (u2 ++ [255]) hbb hb0, ← List.cons_append, hq2]
        rfl
    · obtain ⟨q1, hq1⟩ := ih u1 (by simp only [List.length_cons] at hu; omega)
      refine ⟨(a, false) :: q1, ?_⟩
      rw [List.cons_append, decodeA_cons_ne a (u1 ++ [255]) ha, hq1]
      rfl

/-! ## String comparison lemmas -/

theorem headD_eq_getD (l : List Nat) : l.headD 0 = l.getD 0 0 := by
  cases l <;> rfl

theorem tail_getD (l : List Nat) (i : Nat) : l.tail.getD i 0 = l.getD (i + 1) 0 := by
  cases l <;> simp [List.getD]

theorem toupperB_eq_zero (b : Nat) : toupperB b = 0 ↔ b = 0 := by
  unfold toupperB
  split <;> omega

theorem strlenList_pos_byte (l : List Nat) (i : Nat) (h : i < strlenList l) :
    l.getD i 0 ≠ 0 := by
  induction l generalizing i with
  | nil => simp [strlenList] at h
  | cons b rest ih =>
    by_cases hb : b = 0
    · rw [strlenList, if_pos hb] at h
      omega
    · rw [strlenList, if_neg hb] at h
      cases i with
      | zero => simpa [List.getD] using hb
      | succ j =>
        rw [List.getD_cons_succ]
        exact ih j (by omega)

theorem strncasecmp_eq_zero_iff : ∀ (n : Nat) (s1 s2 : List Nat),
    (∀ i < n, s1.getD i 0 ≠ 0) →
    (sim_serial_strncasecmp s1 s2 n = 0
      ↔ ∀ i < n, toupperB (s1.getD i 0) = toupperB (s2.getD i 0)) := by
  intro n
  induction n with
  | zero =>
    intro s1 s2 h1
    constructor
    · intro _ i hi
      omega
    · intro _
      rfl
  | succ n ih =>
    intro s1 s2 h1
    have ha0 : toupperB (s1.headD 0) ≠ 0 := by
      rw [headD_eq_getD, Ne, toupperB_eq_zero]
      exact h1 0 (by omega)
    simp only [sim_serial_strncasecmp]
    by_cases hlt : toupperB (s1.headD 0) < toupperB (s2.headD 0)
    · rw [if_pos hlt]
      constructor
      · intro hcon
        exact absurd hcon (by norm_num)
      · intro hall
        exfalso
        have h00 := hall 0 (by omega)
        rw [← headD_eq_getD, ← headD_eq_getD] at h00
        omega
    · rw [if_neg hlt]
      by_cases hgt : toupperB (s2.headD 0) < toupperB (s1.headD 0)
      · rw [if_pos hgt]
        constructor
        · intro hcon
          exact absurd hcon (by norm_num)
        · intro hall
          exfalso
          have h00 := hall 0 (by omega)
          rw [← headD_eq_getD, ← headD_eq_getD] at h00
          omega
      · rw [if_neg hgt, if_neg ha0]
        have hab : toupperB (s1.headD 0) = toupperB (s2.headD 0) := by omega
        have h1t : ∀ i < n, s1.tail.getD i 0 ≠ 0 := by
          intro i hi
          rw [tail_getD]
          exact h1 (i + 1) (by omega)
        rw [ih s1.tail s2.tail h1t]
        constructor
        · intro hall i hi
          cases i with
          | zero =>
            rw [← headD_eq_getD, ← headD_eq_getD]
            exact hab
          | succ j =>
            rw [← tail_getD, ← tail_getD]
            exact hall j (by omega)
        · intro hall i hi
          rw [tail_getD, tail_getD]
          exact hall (i + 1) (by omega)

theorem nameMatches_iff (nm en : List Nat) :
    nameMatches nm en = true
      ↔ (strlenList nm = strlenList en
          ∧ ∀ i < strlenList nm, toupperB (nm.getD i 0) = toupperB (en.getD i 0)) := by
  rw [nameMatches, Bool.and_eq_true, beq_iff_eq, beq_iff_eq]
  constructor
  · rintro ⟨h1, h2⟩
    exact ⟨h1, (strncasecmp_eq_zero_iff (strlenList nm) nm en
      (fun i hi => strlenList_pos_byte nm i hi)).mp h2⟩
  · rintro ⟨h1, h2⟩
    exact ⟨h1, (strncasecmp_eq_zero_iff (strlenList nm) nm en
      (fun i hi => strlenList_pos_byte nm i hi)).mpr h2⟩

theorem descMatches_iff (ds ed : List Nat) :
    descMatches ds ed = true
      ↔ (strlenList ds = strlenList ed
          ∧ ∀ k < strlenList ds, tolowerB (ds.getD k 0) = tolowerB (ed.getD k 0)) := by
  rw [descMatches, Bool.and_eq_true, beq_iff_eq, List.all_eq_true]
  constructor
  · rintro ⟨h1, h2⟩
    exact ⟨h1, fun k hk => by simpa using h2 k (List.mem_range.mpr hk)⟩
  · rintro ⟨h1, h2⟩
    exact ⟨h1, fun k hk => by simpa using h2 k (List.mem_range.mp hk)⟩

theorem nameMatches_refl (l : List Nat) : nameMatches l l = true := by
  rw [nameMatches_iff]
  exact ⟨rfl, fun i _ => rfl⟩

/-! ## find? helper -/

theorem find?_at (p : SERIAL_LIST → Bool) (l : List SERIAL_LIST) (k : Nat)
    (hk : k < l.length) (hkp : p (l.getD k default) = true)
    (hpre : ∀ j < k, p (l.getD j default) = false) :
    l.find? p = some (l.getD k default) := by
  induction l generalizing k with
  | nil => simp at hk
  | cons e rest ih =>
    cases k with
    | zero =>
      rw [List.find?_cons]
      simp only [List.getD_cons_zero] at hkp ⊢
      rw [hkp]
    | succ k2 =>
      have he : p e = false := by
        have h0 := hpre 0 (by omega)
        simpa using h0
      rw [List.find?_cons, he]
      simp only [List.getD_cons_succ] at hkp ⊢
      exact ih k2 (by simpa using hk) hkp
        (fun j hj => by simpa using hpre (j + 1) (by omega))

/-! ## Registry lemmas -/

theorem remove_no_match (l : List open_serial_device) (port : Nat)
    (h : ∀ e ∈ l, e.port ≠ port) :
    _serial_remove_from_open_list l port = l := by
  induction l with
  | nil => rfl
  | cons e rest ih =>
    rw [_serial_remove_from_open_list, if_neg (h e (by simp))]
    rw [ih (fun x hx => h x (by simp [hx]))]

theorem remove_first (pre : List open_serial_device) (e : open_serial_device)
    (post : List open_serial_device) (port : Nat)
    (hpre : ∀ x ∈ pre, x.port ≠ port) (he : e.port = port) :
    _serial_remove_from_open_list (pre ++ e :: post) port = pre ++ post := by
  induction pre with
  | nil =>
    rw [List.nil_append, _serial_remove_from_open_list, if_pos he, List.nil_append]
  | cons x pre2 ih =>
    rw [List.cons_append, _serial_remove_from_open_list, if_neg (hpre x (by simp))]
    rw [ih (fun y hy => hpre y (by simp [hy])), List.cons_append]


/-! ## Catalog merge and sort lemmas -/

theorem strcmpList_le_total (a : List Nat) : ∀ b, strcmpList a b ≤ 0 ∨ strcmpList b a ≤ 0 := by
  induction a with
  | nil =>
    intro b
    left
    cases b <;> simp [strcmpList]
  | cons x s ih =>
    intro b
    cases b with
    | nil =>
      right
      simp [strcmpList]
    | cons y t =>
      simp only [strcmpList]
      split_ifs <;> try omega
      all_goals exact ih t

theorem strcmpList_le_trans (a : List Nat) :
    ∀ b c, strcmpList a b ≤ 0 → strcmpList b c ≤ 0 → strcmpList a c ≤ 0 := by
  induction a with
  | nil =>
    intro b c hab hbc
    cases c <;> simp [strcmpList]
  | cons x s ih =>
    intro b c hab hbc
    cases b with
    | nil => simp [strcmpList] at hab
    | cons y t =>
      cases c with
      | nil => simp [strcmpList] at hbc
      | cons z u =>
        simp only [strcmpList] at hab hbc ⊢
        split_ifs at hab hbc ⊢ <;> try omega
        all_goals exact ih t u hab hbc

theorem serialNameLe_trans (a b c : SERIAL_LIST)
    (h1 : serialNameLe a b = true) (h2 : serialNameLe b c = true) :
    serialNameLe a c = true := by
  simp only [serialNameLe, decide_eq_true_eq] at h1 h2 ⊢
  exact strcmpList_le_trans a.name b.name c.name h1 h2

theorem serialNameLe_total (a b : SERIAL_LIST) :
    (serialNameLe a b || serialNameLe b a) = true := by
  simp only [serialNameLe, Bool.or_eq_true, decide_eq_true_eq]
  exact strcmpList_le_total a.name b.name

theorem mergeLoop_length (devs : List open_serial_device) :
    ∀ (acc : List SERIAL_LIST) (max : Nat), acc.length ≤ max →
    (mergeLoop acc devs max).length ≤ max := by
  induction devs with
  | nil =>
    intro acc max h
    exact h
  | cons d rest ih =>
    intro acc max h
    rw [mergeLoop]
    by_cases h1 : acc.any (fun e => e.name == d.name)
    · rw [if_pos h1]
      exact ih acc max h
    · rw [if_neg h1]
      by_cases h2 : max ≤ acc.length
      · rw [if_pos h2]
        exact h
      · rw [if_neg h2]
        exact ih (acc ++ [⟨d.name, d.desc⟩]) max
          (by simp only [List.length_append, List.length_cons, List.length_nil]; omega)

theorem mergeLoop_app (devs : List open_serial_device) :
    ∀ (acc : List SERIAL_LIST) (max : Nat),
    ∃ extra, mergeLoop acc devs max = acc ++ extra
      ∧ ∀ e ∈ extra, (∃ d ∈ devs, e.name = d.name ∧ e.desc = d.desc)
          ∧ e.name ∉ acc.map (fun x => x.name) := by
  induction devs with
  | nil =>
    intro acc max
    exact ⟨[], by simp [mergeLoop], by simp⟩
  | cons d rest ih =>
    intro acc max
    rw [mergeLoop]
    by_cases h1 : acc.any (fun e => e.name == d.name)
    · rw [if_pos h1]
      obtain ⟨ex, he, hp⟩ := ih acc max
      refine ⟨ex, he, ?_⟩
      intro e hee
      obtain ⟨⟨d2, hd2, hh⟩, hnotin⟩ := hp e hee
      exact ⟨⟨d2, List.mem_cons_of_mem _ hd2, hh⟩, hnotin⟩
    · rw [if_neg h1]
      by_cases h2 : max ≤ acc.length
      · rw [if_pos h2]
        exact ⟨[], by simp, by simp⟩
      · rw [if_neg h2]
        obtain ⟨ex, he, hp⟩ := ih (acc ++ [⟨d.name, d.desc⟩]) max
        refine ⟨⟨d.name, d.desc⟩ :: ex, by rw [he]; simp, ?_⟩
        intro e hee
        rcases List.mem_cons.mp hee with h3 | h3
        · subst h3
          refine ⟨⟨d, by simp, rfl, rfl⟩, ?_⟩
          simp only [List.any_eq_true, beq_iff_eq] at h1
          intro hcon
          rcases List.mem_map.mp hcon with ⟨x, hx, hxn⟩
          exact h1 ⟨x, hx, hxn⟩
        · obtain ⟨⟨d2, hd2, hh⟩, hnotin⟩ := hp e h3
          refine ⟨⟨d2, List.mem_cons_of_mem _ hd2, hh⟩, ?_⟩
          intro hcon
          apply hnotin
          rw [List.map_append]
          exact List.mem_append_left _ hcon
    
theorem mergeLoop_name_mono (devs : List open_serial_device) :
    ∀ (acc : List SERIAL_LIST) (max : Nat) (x : List Nat),
    x ∈ acc.map (fun e => e.name) → x ∈ (mergeLoop acc devs max).map (fun e => e.name) := by
  induction devs with
  | nil =>
    intro acc max x hx
    exact hx
  | cons d rest ih =>
    intro acc max x hx
    rw [mergeLoop]
    by_cases h1 : acc.any (fun e => e.name == d.name)
    · rw [if_pos h1]
      exact ih acc max x hx
    · rw [if_neg h1]
      by_cases h2 : max ≤ acc.length
      · rw [if_pos h2]
        exact hx
      · rw [if_neg h2]
        apply ih
        rw [List.map_append]
        exact List.mem_append_left _ hx

theorem mergeLoop_complete (devs : List open_serial_device) :
    ∀ (acc : List SERIAL_LIST) (max : Nat),
    (mergeLoop acc devs max).length < max →
    ∀ d ∈ devs, d.name ∈ (mergeLoop acc devs max).map (fun e => e.name) := by
  induction devs with
  | nil =>
    intro acc max h d hd
    simp at hd
  | cons d0 rest ih =>
    intro acc max h d hd
    rw [mergeLoop] at h ⊢
    by_cases h1 : acc.any (fun e => e.name == d0.name)
    · rw [if_pos h1] at h ⊢
      rcases List.mem_cons.mp hd with h3 | h3
      · subst h3
        rcases List.any_eq_true.mp h1 with ⟨x, hx, hxe⟩
        apply mergeLoop_name_mono
        rw [beq_iff_eq] at hxe
        exact List.mem_map.mpr ⟨x, hx, hxe⟩
      · exact ih acc max h d h3
    · rw [if_neg h1] at h ⊢
      by_cases h2 : max ≤ acc.length
      · rw [if_pos h2] at h
        omega
      · rw [if_neg h2] at h ⊢
        rcases List.mem_cons.mp hd with h3 | h3
        · subst h3
          apply mergeLoop_name_mono
          rw [List.map_append]
          apply List.mem_append_right
          simp
        · exact ih (acc ++ [⟨d0.name, d0.desc⟩]) max h d h3

/-- The UNIX read decodes exactly as Encoding A specifies. -/
theorem sim_read_unix_eq (input : List Nat) :
    sim_read_serial_unix input = (outBytes (decodeA input), flagsPos (decodeA input) 0) := by
  obtain ⟨g, hg⟩ := parmrkLoop_spec input.length input [] [] [] input 0
    (input.length - 1) input.length (le_refl _) (by simp) rfl rfl (by simp)
  rw [sim_read_serial_unix, hg]
  simp only [List.nil_append, Nat.zero_add, List.length_nil]
  congr 1
  rw [take_len_app (outBytes (decodeA input)) g _ (outBytes_length _).symm]

/-! ## Additional memchr fact for Encoding B -/

theorem memchrL_none_mem (x : Nat) (l : List Nat)
    (h : memchrL x l l.length = none) : ∀ b ∈ l, b ≠ x := by
  induction l with
  | nil => simp
  | cons b rest ih =>
    rw [List.length_cons, memchrL] at h
    by_cases hb : b = x
    · rw [if_pos hb] at h
      simp at h
    · rw [if_neg hb] at h
      intro y hy
      rcases List.mem_cons.mp hy with h1 | h1
      · subst h1
        exact hb
      · exact ih (by simpa using h) y h1

/-! ## The claims -/

/-- C1: Encoding A decoding (UNIX `sim_read_serial`): scanning left to
right, `{ESC, ESC}` collapses to one literal ESC, `{ESC, NUL, C}` collapses
to `C` with the BreakFlags slot at the output position of the collapsed byte
set exactly when `C` is NUL, and every other byte passes through unchanged —
the loop equals the specified decoder `decodeA` on every input; in
particular `{0x41, ESC, ESC, 0x42}` decodes to `{0x41, ESC, 0x42}` with no
flags, and `{ESC, NUL, 0x00}` decodes to `{0x00}` with BreakFlags[0] set. -/
theorem C1_encodingA_decode :
    (∀ input, sim_read_serial_unix input
        = (outBytes (decodeA input), flagsPos (decodeA input) 0))
    ∧ sim_read_serial_unix [0x41, 0xFF, 0xFF, 0x42] = ([0x41, 0xFF, 0x42], [])
    ∧ sim_read_serial_unix [0xFF, 0x00, 0x00] = ([0x00], [0]) := by
  refine ⟨sim_read_unix_eq, ?_, ?_⟩
  · rw [sim_read_unix_eq]
    rfl
  · rw [sim_read_unix_eq]
    rfl

/-- C2 counterexample: on the Windows backend, a read that returns zero
bytes with a reported BREAK still writes BreakFlags[0], so a flag position
is written that does not lie in `[0, output_count)`. -/
theorem C2_flag_without_output_cex :
    (sim_read_serial_win [] true).1.length = 0
    ∧ ¬(∀ i ∈ (sim_read_serial_win [] true).2,
          i < (sim_read_serial_win [] true).1.length) := by
  decide

/-- C2 as amended: for every successful read, output count ≤ input count and
every written BreakFlags position lies in `[0, output_count)` — for
Encoding A unconditionally, and for Encoding B whenever at least one byte
was read (with zero bytes and a reported BREAK, Encoding B writes flag 0). -/
theorem C2_output_and_flag_bounds :
    (∀ input, (sim_read_serial_unix input).1.length ≤ input.length
        ∧ ∀ i ∈ (sim_read_serial_unix input).2,
            i < (sim_read_serial_unix input).1.length)
    ∧ (∀ bytes brkDet, bytes ≠ ([] : List Nat) →
        (sim_read_serial_win bytes brkDet).1.length ≤ bytes.length
        ∧ ∀ i ∈ (sim_read_serial_win bytes brkDet).2,
            i < (sim_read_serial_win bytes brkDet).1.length) := by
  constructor
  · intro input
    rw [sim_read_unix_eq]
    refine ⟨?_, ?_⟩
    · show (outBytes (decodeA input)).length ≤ input.length
      rw [outBytes_length]
      exact decodeA_length_le input
    · intro i hi
      show i < (outBytes (decodeA input)).length
      rw [outBytes_length]
      have hlt := flagsPos_mem_lt (decodeA input) 0 i hi
      omega
  · intro bytes brkDet hne
    refine ⟨le_refl _, ?_⟩
    intro i hi
    cases brkDet with
    | false => simp [sim_read_serial_win] at hi
    | true =>
      show i < bytes.length
      simp [sim_read_serial_win] at hi
      subst hi
      rcases hmo : memchrL 0 bytes bytes.length with _ | o
      · rcases bytes with _ | ⟨b, rest⟩
        · exact absurd rfl hne
        · simp
      · simpa using (memchrL_some_spec 0 bytes bytes.length o hmo).2.1

/-- C3: Encoding B (Windows `sim_read_serial`): with a reported BREAK,
exactly one BreakFlags slot is set — at the first NUL when one is present,
at position 0 otherwise; without a BREAK no slot is set; with the concrete
examples of the spec. -/
theorem C3_encodingB_break_heuristic :
    (∀ bytes, (sim_read_serial_win bytes false).2 = [])
    ∧ (∀ bytes, ∃ k, (sim_read_serial_win bytes true).2 = [k]
        ∧ ((k < bytes.length ∧ bytes[k]? = some 0 ∧ ∀ j < k, bytes[j]? ≠ some 0)
            ∨ (k = 0 ∧ ∀ b ∈ bytes, b ≠ 0)))
    ∧ sim_read_serial_win [0x10, 0x00, 0x20] true = ([0x10, 0x00, 0x20], [1])
    ∧ sim_read_serial_win [0x10, 0x20] true = ([0x10, 0x20], [0]) := by
  refine ⟨fun bytes => rfl, ?_, by decide, by decide⟩
  intro bytes
  rcases hmo : memchrL 0 bytes bytes.length with _ | o
  · refine ⟨0, by simp [sim_read_serial_win, hmo], Or.inr ⟨rfl, ?_⟩⟩
    exact memchrL_none_mem 0 bytes hmo
  · obtain ⟨h1, h2, h3, h4⟩ := memchrL_some_spec 0 bytes bytes.length o hmo
    exact ⟨o, by simp [sim_read_serial_win, hmo], Or.inl ⟨h2, h3, h4⟩⟩

/-- C4 counterexample: with the catalog `[{"com1", "a"}, {"COM1", "b"}]`
(distinct names, hence a legal catalog snapshot), resolving `"ser1"` (index
1) returns entry 1's name `"COM1"` but entry 0's description `"a"`, because
the description is looked up again by case-insensitive name — not "exactly
the name and description of catalog entry i". -/
theorem C4_duplicate_name_desc_cex :
    serPattern [115, 101, 114, 49] = true
    ∧ atoiList ([115, 101, 114, 49].drop 3) = 1
    ∧ ([⟨[99, 111, 109, 49], [97]⟩, ⟨[67, 79, 77, 49], [98]⟩] : List SERIAL_LIST).length = 2
    ∧ resolveName [⟨[99, 111, 109, 49], [97]⟩, ⟨[67, 79, 77, 49], [98]⟩]
        [115, 101, 114, 49]
        = ResolveResult.resolved [67, 79, 77, 49] (some [97])
    ∧ resolveName [⟨[99, 111, 109, 49], [97]⟩, ⟨[67, 79, 77, 49], [98]⟩]
        [115, 101, 114, 49]
        ≠ ResolveResult.resolved [67, 79, 77, 49] (some [98]) := by
  decide

/-- C4 as amended: for a user name matching the `serX` pattern with parsed
index `i`: if `i` is in range and no earlier catalog entry's name
case-insensitively equals entry `i`'s name, resolution returns exactly entry
`i`'s name and description (in general the description comes from the first
case-insensitive name match); if `i` is out of range, resolution fails with
`INVALID_HANDLE` without falling through to description, name or
pass-through matching. -/
theorem C4_indexed_resolution (catalog : List SERIAL_LIST) (nm : List Nat) (i : Nat)
    (hser : serPattern nm = true) (hi : i = atoiList (nm.drop 3)) :
    ((i < catalog.length →
       (∀ j < i, nameMatches (catalog.getD i default).name
           (catalog.getD j default).name = false) →
       resolveName catalog nm
         = ResolveResult.resolved (catalog.getD i default).name
             (some (catalog.getD i default).desc))
      ∧ (catalog.length ≤ i → resolveName catalog nm = ResolveResult.notFound)) := by
  subst hi
  constructor
  · intro hlt hpre
    have hg : sim_serial_getname catalog (atoiList (nm.drop 3))
        = some ((catalog.getD (atoiList (nm.drop 3)) default).name) := by
      rw [sim_serial_getname, if_neg (by omega)]
    have hdesc : sim_serial_getdesc_byname catalog
          ((catalog.getD (atoiList (nm.drop 3)) default).name)
        = some ((catalog.getD (atoiList (nm.drop 3)) default).desc) := by
      rw [sim_serial_getdesc_byname,
        find?_at _ catalog (atoiList (nm.drop 3)) hlt (nameMatches_refl _) hpre]
      rfl
    unfold resolveName
    rw [if_pos hser]
    split
    · rename_i heq
      rw [hg] at heq
      simp at heq
    · rename_i nm2 heq
      rw [hg] at heq
      have h2 := Option.some.inj heq
      subst h2
      rw [hdesc]
  · intro hge
    have hg : sim_serial_getname catalog (atoiList (nm.drop 3)) = none := by
      rw [sim_serial_getname, if_pos hge]
    unfold resolveName
    rw [if_pos hser]
    split
    · rfl
    · rename_i nm2 heq
      rw [hg] at heq
      simp at heq

theorem C4_indexed_resolution_witness :
    serPattern [115, 101, 114, 49] = true
    ∧ resolveName [⟨[67, 79, 77, 49], [97]⟩, ⟨[67, 79, 77, 50], [98]⟩]
        [115, 101, 114, 49]
        = ResolveResult.resolved [67, 79, 77, 50] (some [98]) := by
  refine ⟨by decide, ?_⟩
  exact (C4_indexed_resolution
    [⟨[67, 79, 77, 49], [97]⟩, ⟨[67, 79, 77, 50], [98]⟩]
    [115, 101, 114, 49] 1 (by decide) (by decide)).1 (by decide) (by decide)

/-- C5: an entry matches in resolver steps 2-3 exactly when the two strings
have equal `strlen` and agree at every position up to that common length
under ASCII case folding; in particular a strict prefix (different lengths)
never matches. The characterisation quantifies over all positions below the
common length: with `n = strlen`, no byte before position `n` is NUL, so the
comparison never stops early at an embedded NUL. -/
theorem C5_match_characterisation :
    (∀ nm en, nameMatches nm en = true
        ↔ (strlenList nm = strlenList en
            ∧ ∀ i < strlenList nm, toupperB (nm.getD i 0) = toupperB (en.getD i 0)))
    ∧ (∀ ds ed, descMatches ds ed = true
        ↔ (strlenList ds = strlenList ed
            ∧ ∀ k < strlenList ds, tolowerB (ds.getD k 0) = tolowerB (ed.getD k 0)))
    ∧ (∀ nm en, strlenList nm ≠ strlenList en
        → nameMatches nm en = false ∧ descMatches nm en = false) := by
  refine ⟨nameMatches_iff, descMatches_iff, ?_⟩
  intro nm en hne
  constructor
  · cases hc : nameMatches nm en with
    | false => rfl
    | true => exact absurd ((nameMatches_iff nm en).mp hc).1 hne
  · cases hc : descMatches nm en with
    | false => rfl
    | true => exact absurd ((descMatches_iff nm en).mp hc).1 hne

/-- C6: registering a handle not in the registry and then unregistering it
restores the registry exactly; unregistering an absent handle is a no-op;
and unregistering removes exactly the first matching entry, shifting later
entries left so the relative order of the rest is preserved. -/
theorem C6_registry_ops :
    (∀ (l : List open_serial_device) (port line : Nat) (nm : List Nat)
        (dsc : Option (List Nat)),
       (∀ e ∈ l, e.port ≠ port) →
       _serial_remove_from_open_list
         (_serial_add_to_open_list l port line nm dsc) port = l)
    ∧ (∀ (l : List open_serial_device) (port : Nat),
        (∀ e ∈ l, e.port ≠ port) → _serial_remove_from_open_list l port = l)
    ∧ (∀ (pre : List open_serial_device) (e : open_serial_device)
        (post : List open_serial_device) (port : Nat),
        (∀ x ∈ pre, x.port ≠ port) → e.port = port →
        _serial_remove_from_open_list (pre ++ e :: post) port = pre ++ post) := by
  refine ⟨?_, remove_no_match, remove_first⟩
  intro l port line nm dsc h
  rw [_serial_add_to_open_list]
  have hx := remove_first l ⟨port, line, nm, dsc.getD []⟩ [] port h rfl
  simpa using hx

/-- C7: `sim_serial_devices` appends every open device whose name is not in
the host-enumerated list (until `max` is reached), returns at most `max`
entries, and the result is sorted ascending byte-wise by name (it is a
permutation of the merged list). -/
theorem C7_catalog_merge (max : Nat) (osList : List SERIAL_LIST)
    (openDevs : List open_serial_device) (hos : osList.length ≤ max) :
    (sim_serial_devices max osList openDevs).length ≤ max
    ∧ List.Pairwise (fun a b => strcmpList a.name b.name ≤ 0)
        (sim_serial_devices max osList openDevs)
    ∧ (sim_serial_devices max osList openDevs).Perm (mergeLoop osList openDevs max)
    ∧ (∃ extra, mergeLoop osList openDevs max = osList ++ extra
        ∧ ∀ e ∈ extra, (∃ d ∈ openDevs, e.name = d.name ∧ e.desc = d.desc)
            ∧ e.name ∉ osList.map (fun x => x.name))
    ∧ ((mergeLoop osList openDevs max).length < max →
        ∀ d ∈ openDevs,
          d.name ∈ (sim_serial_devices max osList openDevs).map (fun e => e.name)) := by
  have hperm : (sim_serial_devices max osList openDevs).Perm
      (mergeLoop osList openDevs max) :=
    List.mergeSort_perm (mergeLoop osList openDevs max) serialNameLe
  refine ⟨?_, ?_, hperm, mergeLoop_app openDevs osList max, ?_⟩
  · rw [hperm.length_eq]
    exact mergeLoop_length openDevs osList max hos
  · have hp := List.sorted_mergeSort serialNameLe_trans serialNameLe_total
      (mergeLoop osList openDevs max)
    exact hp.imp (fun hab => by
      simpa [serialNameLe, decide_eq_true_eq] using hab)
  · intro hlen d hd
    have hmem := mergeLoop_complete openDevs osList max hlen d hd
    exact ((hperm.map (fun e => e.name)).mem_iff).mpr hmem

theorem C7_catalog_merge_witness :
    (([⟨[98], [1]⟩] : List SERIAL_LIST).length ≤ 3)
    ∧ (sim_serial_devices 3 [⟨[98], [1]⟩] [⟨7, 0, [97], [2]⟩]).length ≤ 3 :=
  ⟨by decide, (C7_catalog_merge 3 [⟨[98], [1]⟩] [⟨7, 0, [97], [2]⟩] (by decide)).1⟩

/-- C8: evaluation at the failing input. On the termios backend a valid
configuration (9600 baud, 8 bits, parity 'N', 1 stop bit) whose `tcsetattr`
call fails makes `sim_config_serial` return `SCPE_IERR` — a fourth status
outside the claimed `{SCPE_OK, SCPE_ARG, SCPE_IOERR}` and contradicting the
function's own comment ("If an unexpected error occurs, SCPE_IOERR is
returned"). The char_size 4/9 part of the claim does hold on both
backends. -/
theorem C8_config_status_eval :
    sim_config_serial_unix true false ⟨9600, 8, 78, 1⟩ = ConfigStatus.ierr
    ∧ ConfigStatus.ierr ≠ ConfigStatus.ioerr
    ∧ sim_config_serial_win true HostSet.ok ⟨9600, 4, 78, 1⟩ = ConfigStatus.arg
    ∧ sim_config_serial_win true HostSet.ok ⟨9600, 9, 78, 1⟩ = ConfigStatus.arg
    ∧ sim_config_serial_unix true true ⟨9600, 4, 78, 1⟩ = ConfigStatus.arg
    ∧ sim_config_serial_unix true true ⟨9600, 9, 78, 1⟩ = ConfigStatus.arg := by
  decide

/-- C9: decoding is greedy and non-overlapping: after `{ESC, ESC}` or
`{ESC, NUL, ESC}` is collapsed to a literal ESC output byte, decoding
resumes strictly after that byte — the rest of the read decodes exactly as
it would alone, so the produced ESC is never reinterpreted as the start of a
new marker sequence. -/
theorem C9_no_reinterpretation :
    ∀ t, sim_read_serial_unix (255 :: 255 :: t)
        = (255 :: (sim_read_serial_unix t).1, (sim_read_serial_unix t).2.map (fun x => x + 1))
      ∧ sim_read_serial_unix (255 :: 0 :: 255 :: t)
        = (255 :: (sim_read_serial_unix t).1,
            (sim_read_serial_unix t).2.map (fun x => x + 1)) := by
  intro t
  constructor
  · rw [sim_read_unix_eq, sim_read_unix_eq, decodeA_ff_ff, outBytes_cons]
    simp only [flagsPos, if_neg (by simp : ¬(false = true)), List.nil_append]
    rw [flagsPos_succ]
  · rw [sim_read_unix_eq, sim_read_unix_eq, decodeA_ff_nul_cons,
      show (decide ((255 : Nat) = 0)) = false from rfl, outBytes_cons]
    simp only [flagsPos, if_neg (by simp : ¬(false = true)), List.nil_append]
    rw [flagsPos_succ]

/-- C10: an input ending in the truncated sequence `{ESC, NUL}` (and
likewise a lone trailing ESC) has both marker bytes emitted unchanged at
the very end of the output, with no BreakFlags set at their positions. -/
theorem C10_truncated_sequences :
    ∀ u, (∃ pre flags, sim_read_serial_unix (u ++ [255, 0]) = (pre ++ [255, 0], flags)
            ∧ ∀ i ∈ flags, i < pre.length)
       ∧ (∃ pre flags, sim_read_serial_unix (u ++ [255]) = (pre ++ [255], flags)
            ∧ ∀ i ∈ flags, i < pre.length) := by
  intro u
  constructor
  · obtain ⟨q, hq⟩ := decodeA_tail_ff0 u.length u (le_refl _)
    refine ⟨outBytes q, flagsPos q 0, ?_, ?_⟩
    · rw [sim_read_unix_eq, hq, outBytes_append, flagsPos_append]
      simp [flagsPos, outBytes]
    · intro i hi
      have hlt := flagsPos_mem_lt q 0 i hi
      rw [outBytes_length]
      omega
  · obtain ⟨q, hq⟩ := decodeA_tail_ff u.length u (le_refl _)
    refine ⟨outBytes q, flagsPos q 0, ?_, ?_⟩
    · rw [sim_read_unix_eq, hq, outBytes_append, flagsPos_append]
      simp [flagsPos, outBytes]
    · intro i hi
      have hlt := flagsPos_mem_lt q 0 i hi
      rw [outBytes_length]
      omega


end SimSerial
